import Mathlib

/-!
Verification of the BPR ranking-prediction core (unit 6 notebook) against its
specification.  The embedding models vectors as lists of rationals; the
floating-point exponential and logarithm used by the notebook (`np.exp`,
`np.log`) are abstract function parameters `e` and `lg`, so every statement
about concrete arithmetic is exact.  The process-global numpy random
generator is modelled as a stream of natural numbers (`RStream`) threaded
explicitly through every call that the notebook makes to `np.random`.
-/

namespace RecsysBPR

abbrev Vec := List ℚ
abbrev Factors := List Vec
abbrev RStream := List ℕ

/-- Pointwise vector addition (numpy `+` on equal-length 1-d arrays). -/
def vadd (v w : Vec) : Vec := List.zipWith (· + ·) v w

/-- Pointwise vector subtraction (numpy `-`). -/
def vsub (v w : Vec) : Vec := List.zipWith (· - ·) v w

/-- Scalar multiple of a vector (numpy scalar `*`). -/
def smul (c : ℚ) (v : Vec) : Vec := v.map (fun x => c * x)

/-- Dot product of two factor vectors; this is the scalar scoring definition
of §4.6 and also what `np.sum(a * b, axis=1)` computes row by row. -/
def dot (v w : Vec) : ℚ := (List.zipWith (· * ·) v w).sum

/-- The notebook's `sigmoid`: `1/(1+np.exp(-x))`, with `np.exp` abstracted
as the parameter `e`. -/
def sigmoid (e : ℚ → ℚ) (x : ℚ) : ℚ := 1 / (1 + e (-x))

/-- The three L2 decay coefficients, the notebook's
`l2_decay = {'user': …, 'pos': …, 'neg': …}`. -/
structure L2 where
  user : ℚ
  pos : ℚ
  neg : ℚ

/-- Modelled from the spec: the notebook leaves the body of
`compute_gradients` as a task stub (`pass`), so the gradient formulas are
taken from §4.4 of the specification and the derivation printed in the
notebook's markdown: with `x̂ = w·h_i − w·h_j` and `g = σ(x̂) − 1`
(equivalently `−e^(−x̂)/(1+e^(−x̂))`), the gradients are
`g·(h_i − h_j) + λ_w·w` for the user, `g·w + λ_pos·h_i` for the positive
item and `−g·w + λ_neg·h_j` for the negative item. -/
def computeGradients (e : ℚ → ℚ) (l2 : L2) (userEmbed posItemEmbed negItemEmbed : Vec) :
    Vec × Vec × Vec :=
  let xhat := dot userEmbed posItemEmbed - dot userEmbed negItemEmbed
  let g := sigmoid e xhat - 1
  (vadd (smul g (vsub posItemEmbed negItemEmbed)) (smul l2.user userEmbed),
   vadd (smul g userEmbed) (smul l2.pos posItemEmbed),
   vadd (smul (-g) userEmbed) (smul l2.neg negItemEmbed))

/-- One draw from the modelled process-global generator: the stream supplies
raw numbers and a bounded draw reduces the head modulo the bound (an
exhausted stream keeps supplying 0, i.e. a finite list encodes a stream with
an all-zero tail). -/
def drawNat : RStream → ℕ → ℕ × RStream
  | [], _ => (0, [])
  | r :: rest, n => (r % n, rest)

/-- The notebook's `negative_sampling`: `np.random.choice(user_neg_items[user])`.
`np.random.choice` raises on an empty pool, which the embedding renders as
`none`; on a non-empty pool it returns a uniformly drawn element. -/
def negativeSampling (pool : List ℕ) (s : RStream) : Option (ℕ × RStream) :=
  match pool with
  | [] => none
  | _ :: _ =>
    let d := drawNat s pool.length
    some (pool.getD d.1 0, d.2)

/-- The notebook's identifier-to-row translation: `factors[id - 1]`
("Deduct 1 as user ids are 1-indexed, but array is 0-indexed"). -/
def toRowIndex (ident : ℕ) : ℕ := ident - 1

/-- Drawing the positive pair in the training loop:
`random_index = np.random.randint(n_ratings); user, pos_item = ratings_arr[random_index]`.
`np.random.randint(0)` raises on an empty table, rendered as `none`. -/
def drawPair (arr : List (ℕ × ℕ)) (s : RStream) : Option ((ℕ × ℕ) × RStream) :=
  let d := drawNat s arr.length
  (arr.get? d.1).map (fun p => (p, d.2))

/-- The in-place update `factors[id - 1] -= learning_rate * grad`: the row is
read at update time, so two sequential updates to the same row compose. -/
def applyUpdate (fm : Factors) (ident : ℕ) (lr : ℚ) (grad : Vec) : Factors :=
  fm.set (toRowIndex ident) (vsub (fm.getD (toRowIndex ident) []) (smul lr grad))

/-- The mutable training state: the two factor matrices plus the (modelled)
process-global generator state. -/
structure TrainState where
  userFactors : Factors
  itemFactors : Factors
  rng : RStream

/-- One SGD step of the training loop: draw the positive pair, draw the
negative item, fetch the three embeddings (`factors[id - 1]`, failing on an
out-of-range row like numpy), compute the gradients and apply the three
in-place updates in the notebook's order. -/
def sgdStep (e : ℚ → ℚ) (lr : ℚ) (l2 : L2) (negItems : ℕ → List ℕ)
    (arr : List (ℕ × ℕ)) (st : TrainState) : Option TrainState :=
  match drawPair arr st.rng with
  | none => none
  | some (pair, s1) =>
    match negativeSampling (negItems pair.1) s1 with
    | none => none
    | some (negDraw, s2) =>
      match st.userFactors.get? (toRowIndex pair.1),
            st.itemFactors.get? (toRowIndex pair.2),
            st.itemFactors.get? (toRowIndex negDraw) with
      | some userEmbed, some posItemEmbed, some negItemEmbed =>
        let grads := computeGradients e l2 userEmbed posItemEmbed negItemEmbed
        some ⟨applyUpdate st.userFactors pair.1 lr grads.1,
              applyUpdate (applyUpdate st.itemFactors pair.2 lr grads.2.1)
                negDraw lr grads.2.2,
              s2⟩
      | _, _, _ => none

/-- The fixed number of iterations of the inner loop is the table length
(`for _ in range(len(ratings))`): repeated SGD steps with `Option` failure
propagation. -/
def runSteps (e : ℚ → ℚ) (lr : ℚ) (l2 : L2) (negItems : ℕ → List ℕ)
    (arr : List (ℕ × ℕ)) : ℕ → TrainState → Option TrainState
  | 0, st => some st
  | k + 1, st =>
    match sgdStep e lr l2 negItems arr st with
    | none => none
    | some st' => runSteps e lr l2 negItems arr k st'

/-- One summand of `print_update`: a fresh negative is drawn for the sample's
user, both items are scored and the contribution is `-np.log(sigmoid(pred))`
(`np.log` abstracted as `lg`). -/
def lossTerm (e lg : ℚ → ℚ) (uf itf : Factors) (negItems : ℕ → List ℕ)
    (sample : ℕ × ℕ) (s : RStream) : Option (ℚ × RStream) :=
  match negativeSampling (negItems sample.1) s with
  | none => none
  | some (negDraw, s') =>
    match uf.get? (toRowIndex sample.1), itf.get? (toRowIndex sample.2),
          itf.get? (toRowIndex negDraw) with
    | some userEmbed, some posItemEmbed, some negItemEmbed =>
      some (-(lg (sigmoid e (dot userEmbed posItemEmbed - dot userEmbed negItemEmbed))), s')
    | _, _, _ => none

/-- Sum of the loss summands over the diagnostic window, threading the
generator stream in sampling order. -/
def sumLossTerms (e lg : ℚ → ℚ) (uf itf : Factors) (negItems : ℕ → List ℕ) :
    List (ℕ × ℕ) → RStream → Option (ℚ × RStream)
  | [], s => some (0, s)
  | sample :: rest, s =>
    match lossTerm e lg uf itf negItems sample s with
    | none => none
    | some (t, s') =>
      match sumLossTerms e lg uf itf negItems rest s' with
      | none => none
      | some (ts, s'') => some (t + ts, s'')

/-- The notebook's `print_update`: mean ranking loss over the diagnostic
window (the mean of an empty window, `np.mean([])`, is NaN in the source; the
embedding is only used on non-empty windows, where `sum/length` is exact). -/
def printUpdate (e lg : ℚ → ℚ) (uf itf : Factors) (negItems : ℕ → List ℕ)
    (samples : List (ℕ × ℕ)) (s : RStream) : Option (ℚ × RStream) :=
  match sumLossTerms e lg uf itf negItems samples s with
  | none => none
  | some (total, s') => some (total / (samples.length : ℚ), s')

/-- The diagnostic window size: `samples = ratings_arr[-1000:]`. -/
def windowSize : ℕ := 1000

/-- One epoch: `len(ratings)` SGD steps and then, when `verbose`, the
diagnostic mean loss over the most recent 1000 training pairs is appended to
the loss trace. -/
def epochStep (e lg : ℚ → ℚ) (lr : ℚ) (l2 : L2) (negItems : ℕ → List ℕ)
    (arr : List (ℕ × ℕ)) (verbose : Bool) (st : TrainState) (trace : List ℚ) :
    Option (TrainState × List ℚ) :=
  match runSteps e lr l2 negItems arr arr.length st with
  | none => none
  | some st' =>
    if verbose then
      match printUpdate e lg st'.userFactors st'.itemFactors negItems
          (arr.drop (arr.length - windowSize)) st'.rng with
      | none => none
      | some (loss, s') =>
        some (⟨st'.userFactors, st'.itemFactors, s'⟩, trace ++ [loss])
    else
      some (st', trace)

/-- The epoch loop of the training cell. -/
def runEpochs (e lg : ℚ → ℚ) (lr : ℚ) (l2 : L2) (negItems : ℕ → List ℕ)
    (arr : List (ℕ × ℕ)) (verbose : Bool) :
    ℕ → TrainState → List ℚ → Option (TrainState × List ℚ)
  | 0, st, trace => some (st, trace)
  | n + 1, st, trace =>
    match epochStep e lg lr l2 negItems arr verbose st trace with
    | none => none
    | some (st', trace') => runEpochs e lg lr l2 negItems arr verbose n st' trace'

/-- A full training run: the configured number of epochs starting from the
given state (seeded factor initialization happens outside this loop and is
deterministic given the seed; the `rng` component of the initial state is the
state of the process-global generator, which the seed does NOT determine). -/
def trainRun (e lg : ℚ → ℚ) (lr : ℚ) (l2 : L2) (negItems : ℕ → List ℕ)
    (arr : List (ℕ × ℕ)) (epochs : ℕ) (verbose : Bool) (st : TrainState) :
    Option (TrainState × List ℚ) :=
  runEpochs e lg lr l2 negItems arr verbose epochs st []

set_option maxRecDepth 10000

theorem runSteps_zero (e : ℚ → ℚ) (lr : ℚ) (l2 : L2) (negItems : ℕ → List ℕ)
    (arr : List (ℕ × ℕ)) (st : TrainState) :
    runSteps e lr l2 negItems arr 0 st = some st := rfl

theorem runSteps_succ (e : ℚ → ℚ) (lr : ℚ) (l2 : L2) (negItems : ℕ → List ℕ)
    (arr : List (ℕ × ℕ)) (k : ℕ) (st st' : TrainState)
    (h : sgdStep e lr l2 negItems arr st = some st') :
    runSteps e lr l2 negItems arr (k + 1) st = runSteps e lr l2 negItems arr k st' := by
  rw [runSteps, h]

theorem runEpochs_zero (e lg : ℚ → ℚ) (lr : ℚ) (l2 : L2) (negItems : ℕ → List ℕ)
    (arr : List (ℕ × ℕ)) (verbose : Bool) (st : TrainState) (trace : List ℚ) :
    runEpochs e lg lr l2 negItems arr verbose 0 st trace = some (st, trace) := rfl

theorem runEpochs_succ (e lg : ℚ → ℚ) (lr : ℚ) (l2 : L2)
    (negItems : ℕ → List ℕ) (arr : List (ℕ × ℕ)) (verbose : Bool) (n : ℕ)
    (st st' : TrainState) (trace trace' : List ℚ)
    (h : epochStep e lg lr l2 negItems arr verbose st trace = some (st', trace')) :
    runEpochs e lg lr l2 negItems arr verbose (n + 1) st trace =
    runEpochs e lg lr l2 negItems arr verbose n st' trace' := by
  rw [runEpochs, h]

theorem epochStep_verbose (e lg : ℚ → ℚ) (lr : ℚ) (l2 : L2)
    (negItems : ℕ → List ℕ) (arr : List (ℕ × ℕ)) (st st' : TrainState)
    (loss : ℚ) (s' : RStream) (trace : List ℚ)
    (hsteps : runSteps e lr l2 negItems arr arr.length st = some st')
    (hloss : printUpdate e lg st'.userFactors st'.itemFactors negItems
      (arr.drop (arr.length - windowSize)) st'.rng = some (loss, s')) :
    epochStep e lg lr l2 negItems arr true st trace =
    some (⟨st'.userFactors, st'.itemFactors, s'⟩, trace ++ [loss]) := by
  unfold epochStep
  rw [hsteps]
  simp only [eq_self_iff_true, if_true, hloss]

/-- C1: starting from `w1 = h1 = h2 = 0.1` with d = 1, learning rate 0.1 and
all three decay coefficients zero, one SGD step on the triple
(user 1, positive item 1, negative item 2) leaves `w1 = 0.1` and yields
`h1 = 0.105` and `h2 = 0.095` exactly; the only fact needed about the
exponential is `e 0 = 1`, since `x̂ = 0`, `σ(0) = 1/2`, `g = −1/2`. -/
theorem c1_single_step_scenario (e : ℚ → ℚ) (he : e 0 = 1) :
    sgdStep e (1/10) ⟨0, 0, 0⟩ (fun _ => [2]) [(1, 1)]
      ⟨[[1/10]], [[1/10], [1/10]], [0, 0]⟩ =
    some ⟨[[1/10]], [[21/200], [19/200]], []⟩ := by
  simp only [sgdStep, drawPair, drawNat, negativeSampling, computeGradients,
    sigmoid, dot, vadd, vsub, smul, applyUpdate, toRowIndex, List.get?,
    List.getD, List.set, List.zipWith, List.map, List.sum_cons, List.sum_nil,
    List.length_cons, List.length_nil]
  norm_num [he]

/-- Witness for C1: the hypothesis `e 0 = 1` is satisfied by the constant
function 1, and the theorem then evaluates the step exactly. -/
theorem c1_single_step_scenario_witness :
    sgdStep (fun _ => 1) (1/10) ⟨0, 0, 0⟩ (fun _ => [2]) [(1, 1)]
      ⟨[[1/10]], [[1/10], [1/10]], [0, 0]⟩ =
    some ⟨[[1/10]], [[21/200], [19/200]], []⟩ :=
  c1_single_step_scenario (fun _ => 1) rfl

/-- C2 (code bug): the notebook's training loop draws from the
process-global numpy generator (`np.random.randint`, `np.random.choice`),
which the configured seed does not determine — the seed only drives factor
initialization and the table shuffle.  Two runs with identical
configuration, identical seed-derived initial factors and identical data,
but different hidden generator states, produce different final item factor
matrices (here the negative update lands on item 2 in one run and item 3 in
the other), refuting determinism in (configuration, seed, data) alone. -/
theorem c2_hidden_generator_breaks_reproducibility :
    trainRun (fun _ => 1) (fun _ => 0) (1/20) ⟨0, 0, 0⟩ (fun _ => [2, 3]) [(1, 1)] 1 true
      ⟨[[1/10]], [[1/10], [1/10], [1/10]], [0, 0, 0]⟩ ≠
    trainRun (fun _ => 1) (fun _ => 0) (1/20) ⟨0, 0, 0⟩ (fun _ => [2, 3]) [(1, 1)] 1 true
      ⟨[[1/10]], [[1/10], [1/10], [1/10]], [0, 1, 0]⟩ := by
  have hA1 :
      sgdStep (fun _ => (1:ℚ)) (1/20) ⟨0, 0, 0⟩ (fun _ => [2, 3]) [(1, 1)]
        ⟨[[1/10]], [[1/10], [1/10], [1/10]], [0, 0, 0]⟩ =
      some ⟨[[1/10]], [[41/400], [39/400], [1/10]], [0]⟩ := by
    simp only [sgdStep, drawPair, drawNat, negativeSampling, computeGradients,
      sigmoid, dot, vadd, vsub, smul, applyUpdate, toRowIndex, List.get?,
      List.getD, List.set, List.zipWith, List.map, List.sum_cons, List.sum_nil,
      List.length_cons, List.length_nil]
    norm_num
  have hB1 :
      sgdStep (fun _ => (1:ℚ)) (1/20) ⟨0, 0, 0⟩ (fun _ => [2, 3]) [(1, 1)]
        ⟨[[1/10]], [[1/10], [1/10], [1/10]], [0, 1, 0]⟩ =
      some ⟨[[1/10]], [[41/400], [1/10], [39/400]], [0]⟩ := by
    simp only [sgdStep, drawPair, drawNat, negativeSampling, computeGradients,
      sigmoid, dot, vadd, vsub, smul, applyUpdate, toRowIndex, List.get?,
      List.getD, List.set, List.zipWith, List.map, List.sum_cons, List.sum_nil,
      List.length_cons, List.length_nil]
    norm_num
  have hA2 :
      printUpdate (fun _ => (1:ℚ)) (fun _ => 0) [[1/10]] [[41/400], [39/400], [1/10]]
        (fun _ => [2, 3]) [(1, 1)] [0] = some (0, []) := by
    simp only [printUpdate, sumLossTerms, lossTerm, negativeSampling, drawNat,
      sigmoid, dot, toRowIndex, List.get?, List.getD, List.zipWith,
      List.sum_cons, List.sum_nil, List.length_cons, List.length_nil]
    norm_num
  have hB2 :
      printUpdate (fun _ => (1:ℚ)) (fun _ => 0) [[1/10]] [[41/400], [1/10], [39/400]]
        (fun _ => [2, 3]) [(1, 1)] [0] = some (0, []) := by
    simp only [printUpdate, sumLossTerms, lossTerm, negativeSampling, drawNat,
      sigmoid, dot, toRowIndex, List.get?, List.getD, List.zipWith,
      List.sum_cons, List.sum_nil, List.length_cons, List.length_nil]
    norm_num
  have hA :
      trainRun (fun _ => 1) (fun _ => 0) (1/20) ⟨0, 0, 0⟩ (fun _ => [2, 3]) [(1, 1)] 1 true
        ⟨[[1/10]], [[1/10], [1/10], [1/10]], [0, 0, 0]⟩ =
      some (⟨[[1/10]], [[41/400], [39/400], [1/10]], []⟩, [0]) := by
    have hsteps := runSteps_succ _ _ _ _ _ 0 _ _ hA1
    rw [runSteps_zero] at hsteps
    have hep := epochStep_verbose _ _ _ _ _ _ _ _ 0 [] [] hsteps hA2
    simp only [List.nil_append] at hep
    rw [trainRun, runEpochs_succ _ _ _ _ _ _ _ 0 _ _ _ _ hep, runEpochs_zero]
  have hB :
      trainRun (fun _ => 1) (fun _ => 0) (1/20) ⟨0, 0, 0⟩ (fun _ => [2, 3]) [(1, 1)] 1 true
        ⟨[[1/10]], [[1/10], [1/10], [1/10]], [0, 1, 0]⟩ =
      some (⟨[[1/10]], [[41/400], [1/10], [39/400]], []⟩, [0]) := by
    have hsteps := runSteps_succ _ _ _ _ _ 0 _ _ hB1
    rw [runSteps_zero] at hsteps
    have hep := epochStep_verbose _ _ _ _ _ _ _ _ 0 [] [] hsteps hB2
    simp only [List.nil_append] at hep
    rw [trainRun, runEpochs_succ _ _ _ _ _ _ _ 0 _ _ _ _ hep, runEpochs_zero]
  rw [hA, hB]
  intro h
  simp only [Option.some.injEq, Prod.mk.injEq, TrainState.mk.injEq,
    List.cons.injEq] at h
  norm_num at h

theorem drawNat_fst_lt (s : RStream) (n : ℕ) (h : 0 < n) : (drawNat s n).1 < n := by
  cases s with
  | nil => simpa [drawNat] using h
  | cons r rest => simpa [drawNat] using Nat.mod_lt r h

theorem getD_mem_of_lt {l : List ℕ} {n : ℕ} (h : n < l.length) : l.getD n 0 ∈ l := by
  rw [List.getD_eq_getElem?_getD, List.getElem?_eq_getElem h]
  exact List.getElem_mem h

theorem negativeSampling_eq (pool : List ℕ) (s : RStream) (h : pool ≠ []) :
    negativeSampling pool s =
      some (pool.getD (drawNat s pool.length).1 0, (drawNat s pool.length).2) := by
  match pool, h with
  | _ :: _, _ => rfl

theorem drawPair_eq (arr : List (ℕ × ℕ)) (s : RStream) (h : arr ≠ []) :
    drawPair arr s = some (arr.get ⟨(drawNat s arr.length).1,
      drawNat_fst_lt s arr.length (List.length_pos.mpr h)⟩, (drawNat s arr.length).2) := by
  simp only [drawPair,
    List.get?_eq_get (drawNat_fst_lt s arr.length (List.length_pos.mpr h)),
    Option.map_some']

/-- C3: the NegativeSampler fails exactly on an empty candidate pool and
otherwise returns a member of the pool: `np.random.choice(negatives[user])`
raises on an empty pool (the spec names this condition
`EmptyNegativePoolError`) and draws an element of the pool otherwise. -/
theorem c3_negative_sampling_contract (pool : List ℕ) (s : RStream) :
    (pool = [] → negativeSampling pool s = none) ∧
    (pool ≠ [] → ∃ i s', negativeSampling pool s = some (i, s') ∧ i ∈ pool) := by
  constructor
  · intro h
    subst h
    rfl
  · intro h
    refine ⟨pool.getD (drawNat s pool.length).1 0, (drawNat s pool.length).2,
      negativeSampling_eq pool s h, ?_⟩
    exact getD_mem_of_lt (drawNat_fst_lt s pool.length (List.length_pos.mpr h))

/-- Witness for C3 at a concrete pool and stream: the sampler succeeds on
the pool [2, 3] and returns one of its members. -/
theorem c3_negative_sampling_contract_witness :
    ∃ i s', negativeSampling [2, 3] [5] = some (i, s') ∧ i ∈ [2, 3] :=
  (c3_negative_sampling_contract [2, 3] [5]).2 (by decide)

/-- Positive items of a user in the training table, the notebook's
`grouped.get_group(user).item.values` (empty when the user has no group). -/
def posItemsOf (trainPairs : List (ℕ × ℕ)) (u : ℕ) : List ℕ :=
  (trainPairs.filter (fun p => p.1 == u)).map Prod.snd

/-- The notebook's `np.setdiff1d(data.items, pos_items)`: catalog items that
are not among the user's positives (`setdiff1d` also sorts and deduplicates,
which is immaterial for the set-level statements proved below on a
duplicate-free catalog). -/
def negItemsOf (dataItems : List ℕ) (trainPairs : List (ℕ × ℕ)) (u : ℕ) : List ℕ :=
  dataItems.filter (fun i => !(posItemsOf trainPairs u).contains i)

/-- The FeedbackIndex build loop: one entry per user of the user catalog,
holding the user's positive items and negative candidate pool. -/
def buildIndex (dataUsers dataItems : List ℕ) (trainPairs : List (ℕ × ℕ)) :
    List (ℕ × List ℕ × List ℕ) :=
  dataUsers.map (fun u => (u, posItemsOf trainPairs u, negItemsOf dataItems trainPairs u))

/-- C4 (counterexample): with catalog {1} and training table [(1, 1)],
user 1 has an empty negative pool yet IS drawn as the positive-pair source
(the draw is a uniform pick from the training table, with no restriction to
users having a non-empty pool), and the SGD step then fails on negative
sampling — exhaustion does occur. -/
theorem c4_empty_pool_user_is_drawn :
    drawPair [(1, 1)] [0] = some ((1, 1), []) ∧
    negItemsOf [1] [(1, 1)] 1 = [] ∧
    sgdStep (fun _ => 1) (1/10) ⟨0, 0, 0⟩ (negItemsOf [1] [(1, 1)]) [(1, 1)]
      ⟨[[1/10]], [[1/10]], [0, 0]⟩ = none :=
  ⟨rfl, rfl, rfl⟩

theorem applyUpdate_length (fm : Factors) (ident : ℕ) (lr : ℚ) (grad : Vec) :
    (applyUpdate fm ident lr grad).length = fm.length := by
  simp [applyUpdate]

theorem sgdStep_lengths (e : ℚ → ℚ) (lr : ℚ) (l2 : L2) (negItems : ℕ → List ℕ)
    (arr : List (ℕ × ℕ)) (st st' : TrainState)
    (h : sgdStep e lr l2 negItems arr st = some st') :
    st'.userFactors.length = st.userFactors.length ∧
    st'.itemFactors.length = st.itemFactors.length := by
  unfold sgdStep at h
  repeat' split at h
  all_goals cases h
  exact ⟨by simp [applyUpdate_length], by simp [applyUpdate_length]⟩

theorem sgdStep_some (e : ℚ → ℚ) (lr : ℚ) (l2 : L2) (negItems : ℕ → List ℕ)
    (arr : List (ℕ × ℕ)) (st : TrainState)
    (harr : arr ≠ [])
    (hpairs : ∀ p ∈ arr, toRowIndex p.1 < st.userFactors.length ∧
      toRowIndex p.2 < st.itemFactors.length ∧ negItems p.1 ≠ [] ∧
      ∀ j ∈ negItems p.1, toRowIndex j < st.itemFactors.length) :
    ∃ st', sgdStep e lr l2 negItems arr st = some st' ∧
      st'.userFactors.length = st.userFactors.length ∧
      st'.itemFactors.length = st.itemFactors.length := by
  have hlt := drawNat_fst_lt st.rng arr.length (List.length_pos.mpr harr)
  have hmem : arr.get ⟨(drawNat st.rng arr.length).1, hlt⟩ ∈ arr :=
    List.get_mem arr _ _
  obtain ⟨hb1, hb2, hb3, hb4⟩ := hpairs _ hmem
  have hneg := negativeSampling_eq
    (negItems (arr.get ⟨(drawNat st.rng arr.length).1, hlt⟩).1)
    (drawNat st.rng arr.length).2 hb3
  have hnegmem := getD_mem_of_lt
    (drawNat_fst_lt (drawNat st.rng arr.length).2 _ (List.length_pos.mpr hb3))
  have hsome : (sgdStep e lr l2 negItems arr st).isSome := by
    simp only [sgdStep, drawPair_eq arr st.rng harr, hneg,
      List.get?_eq_get hb1, List.get?_eq_get hb2, List.get?_eq_get (hb4 _ hnegmem),
      Option.isSome_some]
  obtain ⟨st', hst⟩ := Option.isSome_iff_exists.mp hsome
  obtain ⟨hL1, hL2⟩ := sgdStep_lengths e lr l2 negItems arr st st' hst
  exact ⟨st', hst, hL1, hL2⟩

theorem runSteps_some (e : ℚ → ℚ) (lr : ℚ) (l2 : L2) (negItems : ℕ → List ℕ)
    (arr : List (ℕ × ℕ)) (m n : ℕ)
    (harr : arr ≠ [])
    (hpairs : ∀ p ∈ arr, toRowIndex p.1 < m ∧ toRowIndex p.2 < n ∧
      negItems p.1 ≠ [] ∧ ∀ j ∈ negItems p.1, toRowIndex j < n) :
    ∀ (k : ℕ) (st : TrainState), st.userFactors.length = m →
      st.itemFactors.length = n →
      ∃ st', runSteps e lr l2 negItems arr k st = some st' ∧
        st'.userFactors.length = m ∧ st'.itemFactors.length = n := by
  intro k
  induction k with
  | zero => exact fun st hm hn => ⟨st, rfl, hm, hn⟩
  | succ k ih =>
    intro st hm hn
    have hp' : ∀ p ∈ arr, toRowIndex p.1 < st.userFactors.length ∧
        toRowIndex p.2 < st.itemFactors.length ∧ negItems p.1 ≠ [] ∧
        ∀ j ∈ negItems p.1, toRowIndex j < st.itemFactors.length := by
      rw [hm, hn]
      exact hpairs
    obtain ⟨st1, hstep, hm1, hn1⟩ := sgdStep_some e lr l2 negItems arr st harr hp'
    rw [runSteps_succ _ _ _ _ _ _ _ _ hstep]
    exact ih st1 (hm1.trans hm) (hn1.trans hn)

theorem lossTerm_some (e lg : ℚ → ℚ) (uf itf : Factors) (negItems : ℕ → List ℕ)
    (sample : ℕ × ℕ) (s : RStream)
    (h1 : toRowIndex sample.1 < uf.length) (h2 : toRowIndex sample.2 < itf.length)
    (h3 : negItems sample.1 ≠ [])
    (h4 : ∀ j ∈ negItems sample.1, toRowIndex j < itf.length) :
    ∃ q s', lossTerm e lg uf itf negItems sample s = some (q, s') := by
  have hneg := negativeSampling_eq (negItems sample.1) s h3
  have hnegmem := getD_mem_of_lt
    (drawNat_fst_lt s (negItems sample.1).length (List.length_pos.mpr h3))
  have hsome : (lossTerm e lg uf itf negItems sample s).isSome := by
    simp only [lossTerm, hneg, List.get?_eq_get h1, List.get?_eq_get h2,
      List.get?_eq_get (h4 _ hnegmem), Option.isSome_some]
  obtain ⟨qs, h⟩ := Option.isSome_iff_exists.mp hsome
  exact ⟨qs.1, qs.2, h⟩

theorem sumLossTerms_some (e lg : ℚ → ℚ) (uf itf : Factors) (negItems : ℕ → List ℕ) :
    ∀ (samples : List (ℕ × ℕ)) (s : RStream),
      (∀ p ∈ samples, toRowIndex p.1 < uf.length ∧ toRowIndex p.2 < itf.length ∧
        negItems p.1 ≠ [] ∧ ∀ j ∈ negItems p.1, toRowIndex j < itf.length) →
      ∃ q s', sumLossTerms e lg uf itf negItems samples s = some (q, s')
  | [], s, _ => ⟨0, s, rfl⟩
  | sample :: rest, s, hall => by
    obtain ⟨h1, h2, h3, h4⟩ := hall sample (List.mem_cons_self _ _)
    obtain ⟨q, s', hq⟩ := lossTerm_some e lg uf itf negItems sample s h1 h2 h3 h4
    obtain ⟨qs, s'', hqs⟩ := sumLossTerms_some e lg uf itf negItems rest s'
      (fun p hp => hall p (List.mem_cons_of_mem _ hp))
    refine ⟨q + qs, s'', ?_⟩
    simp only [sumLossTerms, hq, hqs]

theorem printUpdate_some (e lg : ℚ → ℚ) (uf itf : Factors) (negItems : ℕ → List ℕ)
    (samples : List (ℕ × ℕ)) (s : RStream)
    (hall : ∀ p ∈ samples, toRowIndex p.1 < uf.length ∧ toRowIndex p.2 < itf.length ∧
      negItems p.1 ≠ [] ∧ ∀ j ∈ negItems p.1, toRowIndex j < itf.length) :
    ∃ q s', printUpdate e lg uf itf negItems samples s = some (q, s') := by
  obtain ⟨q, s', hq⟩ := sumLossTerms_some e lg uf itf negItems samples s hall
  exact ⟨q / (samples.length : ℚ), s', by simp only [printUpdate, hq]⟩

theorem epochStep_some (e lg : ℚ → ℚ) (lr : ℚ) (l2 : L2) (negItems : ℕ → List ℕ)
    (arr : List (ℕ × ℕ)) (verbose : Bool) (m n : ℕ) (st : TrainState) (trace : List ℚ)
    (harr : arr ≠ [])
    (hpairs : ∀ p ∈ arr, toRowIndex p.1 < m ∧ toRowIndex p.2 < n ∧
      negItems p.1 ≠ [] ∧ ∀ j ∈ negItems p.1, toRowIndex j < n)
    (hm : st.userFactors.length = m) (hn : st.itemFactors.length = n) :
    ∃ st' trace', epochStep e lg lr l2 negItems arr verbose st trace = some (st', trace') ∧
      st'.userFactors.length = m ∧ st'.itemFactors.length = n := by
  obtain ⟨st1, hsteps, hm1, hn1⟩ :=
    runSteps_some e lr l2 negItems arr m n harr hpairs arr.length st hm hn
  cases verbose with
  | false =>
    refine ⟨st1, trace, ?_, hm1, hn1⟩
    simp only [epochStep, hsteps, Bool.false_eq_true, if_false]
  | true =>
    have hall1 : ∀ p ∈ arr.drop (arr.length - windowSize),
        toRowIndex p.1 < st1.userFactors.length ∧
        toRowIndex p.2 < st1.itemFactors.length ∧ negItems p.1 ≠ [] ∧
        ∀ j ∈ negItems p.1, toRowIndex j < st1.itemFactors.length := by
      rw [hm1, hn1]
      exact fun p hp => hpairs p (List.drop_subset _ _ hp)
    obtain ⟨q, s', hpu⟩ := printUpdate_some e lg st1.userFactors st1.itemFactors
      negItems (arr.drop (arr.length - windowSize)) st1.rng hall1
    refine ⟨⟨st1.userFactors, st1.itemFactors, s'⟩, trace ++ [q], ?_, hm1, hn1⟩
    simp only [epochStep, hsteps, eq_self_iff_true, if_true, hpu]

theorem runEpochs_some (e lg : ℚ → ℚ) (lr : ℚ) (l2 : L2) (negItems : ℕ → List ℕ)
    (arr : List (ℕ × ℕ)) (verbose : Bool) (m n : ℕ)
    (harr : arr ≠ [])
    (hpairs : ∀ p ∈ arr, toRowIndex p.1 < m ∧ toRowIndex p.2 < n ∧
      negItems p.1 ≠ [] ∧ ∀ j ∈ negItems p.1, toRowIndex j < n) :
    ∀ (epochs : ℕ) (st : TrainState) (trace : List ℚ),
      st.userFactors.length = m → st.itemFactors.length = n →
      ∃ st' trace',
        runEpochs e lg lr l2 negItems arr verbose epochs st trace = some (st', trace')
  | 0, st, trace, _, _ => ⟨st, trace, rfl⟩
  | epochs + 1, st, trace, hm, hn => by
    obtain ⟨st1, trace1, hep, hm1, hn1⟩ := epochStep_some e lg lr l2 negItems arr
      verbose m n st trace harr hpairs hm hn
    obtain ⟨st2, trace2, hrest⟩ := runEpochs_some e lg lr l2 negItems arr verbose m n
      harr hpairs epochs st1 trace1 hm1 hn1
    refine ⟨st2, trace2, ?_⟩
    rw [runEpochs_succ _ _ _ _ _ _ _ _ _ _ _ _ hep]
    exact hrest

/-- C4 (corrected): the positive-pair draw is a uniform pick from the
training interaction table — every drawn pair is an element of the table, so
only users with at least one positive are ever drawn, but the code does NOT
restrict the draw to users with a non-empty negative pool (see the
counterexample): only under the amended hypothesis that every user occurring
in the table has a non-empty negative pool (and in-range factor rows) is
sampling exhaustion absent from every step of every epoch. -/
theorem c4_no_exhaustion_iff_table_users_have_pools (e lg : ℚ → ℚ) (lr : ℚ)
    (l2 : L2) (negItems : ℕ → List ℕ) (arr : List (ℕ × ℕ)) (epochs : ℕ)
    (verbose : Bool) (st : TrainState) (s : RStream)
    (harr : arr ≠ [])
    (hpairs : ∀ p ∈ arr, toRowIndex p.1 < st.userFactors.length ∧
      toRowIndex p.2 < st.itemFactors.length ∧ negItems p.1 ≠ [] ∧
      ∀ j ∈ negItems p.1, toRowIndex j < st.itemFactors.length) :
    (∃ p s', drawPair arr s = some (p, s') ∧ p ∈ arr) ∧
    (trainRun e lg lr l2 negItems arr epochs verbose st).isSome := by
  constructor
  · exact ⟨_, _, drawPair_eq arr s harr, List.get_mem _ _ _⟩
  · obtain ⟨st', trace', h⟩ := runEpochs_some e lg lr l2 negItems arr verbose
      st.userFactors.length st.itemFactors.length harr hpairs epochs st [] rfl rfl
    rw [trainRun, h]
    rfl

/-- Witness for C4's amended statement at a concrete configuration: one user,
two items, the table user has pool [2], and the one-epoch run succeeds. -/
theorem c4_no_exhaustion_iff_table_users_have_pools_witness :
    (∃ p s', drawPair [(1, 1)] [0] = some (p, s') ∧ p ∈ [(1, 1)]) ∧
    (trainRun (fun _ => 1) (fun _ => 0) (1/10) ⟨0, 0, 0⟩ (fun _ => [2]) [(1, 1)] 1 false
      ⟨[[1/10]], [[1/10], [1/10]], [0, 0]⟩).isSome :=
  c4_no_exhaustion_iff_table_users_have_pools (fun _ => 1) (fun _ => 0) (1/10)
    ⟨0, 0, 0⟩ (fun _ => [2]) [(1, 1)] 1 false
    ⟨[[1/10]], [[1/10], [1/10]], [0, 0]⟩ [0] (by decide) (by decide)

theorem mem_posItemsOf {trainPairs : List (ℕ × ℕ)} {u x : ℕ} :
    x ∈ posItemsOf trainPairs u ↔ ∃ p ∈ trainPairs, p.1 = u ∧ p.2 = x := by
  simp only [posItemsOf, List.mem_map, List.mem_filter, beq_iff_eq]
  constructor
  · rintro ⟨p, ⟨hp, hpu⟩, hpx⟩
    exact ⟨p, hp, hpu, hpx⟩
  · rintro ⟨p, hp, hpu, hpx⟩
    exact ⟨p, ⟨hp, hpu⟩, hpx⟩

theorem mem_negItemsOf {dataItems : List ℕ} {trainPairs : List (ℕ × ℕ)} {u x : ℕ} :
    x ∈ negItemsOf dataItems trainPairs u ↔
      x ∈ dataItems ∧ x ∉ posItemsOf trainPairs u := by
  simp [negItemsOf, List.mem_filter]

/-- C7: after the FeedbackIndex build, every user of the user catalog has an
entry; its positive and negative sets are disjoint; provided the training
table only mentions catalog items (guaranteed by the data collaborator of
§6), their union is the full item catalog; and a user with no training pairs
gets an empty positive set and the full catalog as negatives. -/
theorem c7_feedback_index_invariant (dataUsers dataItems : List ℕ)
    (trainPairs : List (ℕ × ℕ)) (u : ℕ)
    (hu : u ∈ dataUsers)
    (hsub : ∀ p ∈ trainPairs, p.2 ∈ dataItems) :
    (u, posItemsOf trainPairs u, negItemsOf dataItems trainPairs u) ∈
      buildIndex dataUsers dataItems trainPairs ∧
    (posItemsOf trainPairs u).toFinset ∩ (negItemsOf dataItems trainPairs u).toFinset = ∅ ∧
    (posItemsOf trainPairs u).toFinset ∪ (negItemsOf dataItems trainPairs u).toFinset =
      dataItems.toFinset ∧
    (u ∉ trainPairs.map Prod.fst →
      posItemsOf trainPairs u = [] ∧ negItemsOf dataItems trainPairs u = dataItems) := by
  refine ⟨List.mem_map_of_mem _ hu, ?_, ?_, ?_⟩
  · ext x
    simp only [Finset.mem_inter, List.mem_toFinset, mem_negItemsOf,
      Finset.not_mem_empty, iff_false]
    rintro ⟨hpos, _, hnot⟩
    exact hnot hpos
  · ext x
    simp only [Finset.mem_union, List.mem_toFinset, mem_negItemsOf]
    constructor
    · rintro (hpos | ⟨hd, _⟩)
      · obtain ⟨p, hp, _, hpx⟩ := mem_posItemsOf.mp hpos
        exact hpx ▸ hsub p hp
      · exact hd
    · intro hd
      by_cases hpos : x ∈ posItemsOf trainPairs u
      · exact Or.inl hpos
      · exact Or.inr ⟨hd, hpos⟩
  · intro hnone
    have hpos : posItemsOf trainPairs u = [] := by
      rw [List.eq_nil_iff_forall_not_mem]
      intro x hx
      obtain ⟨p, hp, hpu, _⟩ := mem_posItemsOf.mp hx
      exact hnone (hpu ▸ List.mem_map_of_mem Prod.fst hp)
    refine ⟨hpos, ?_⟩
    rw [negItemsOf, hpos]
    simp

/-- Witness for C7 at a concrete index: user 2 has no training pairs, so its
entry is an empty positive set and the whole catalog as negatives. -/
theorem c7_feedback_index_invariant_witness :
    (2, posItemsOf [(1, 1)] 2, negItemsOf [1, 2] [(1, 1)] 2) ∈
      buildIndex [1, 2] [1, 2] [(1, 1)] ∧
    (posItemsOf [(1, 1)] 2).toFinset ∩ (negItemsOf [1, 2] [(1, 1)] 2).toFinset = ∅ ∧
    (posItemsOf [(1, 1)] 2).toFinset ∪ (negItemsOf [1, 2] [(1, 1)] 2).toFinset =
      ([1, 2] : List ℕ).toFinset ∧
    (2 ∉ ([(1, 1)] : List (ℕ × ℕ)).map Prod.fst →
      posItemsOf [(1, 1)] 2 = [] ∧ negItemsOf [1, 2] [(1, 1)] 2 = [1, 2]) :=
  c7_feedback_index_invariant [1, 2] [1, 2] [(1, 1)] 2 (by decide) (by decide)

/-- Row-broadcast batch scoring from `get_prediction`:
`np.sum(user_embed * item_embeds, axis=1)` — the pointwise product of the
user vector with every item row, summed along each row. -/
def broadcastScores (userEmbed : Vec) (itemEmbeds : List Vec) : List ℚ :=
  (itemEmbeds.map (fun v => List.zipWith (· * ·) userEmbed v)).map List.sum

/-- The descending comparison realized by `np.argsort(preds)[::-1]` (the
source fixes no tie order; any order that is non-increasing in the score is
an admissible refinement, and a stable merge sort is used here). -/
def scoreLe (a b : ℕ × ℚ) : Bool := decide (b.2 ≤ a.2)

/-- The notebook's `get_prediction`: the candidate items are the user's
negative pool when `remove_known_pos` else the full catalog; the user row
and all candidate rows are fetched (`factors[id - 1]`, raising on an
out-of-range row); an empty candidate batch fails because
`.reshape(len(items), -1)` cannot infer the free dimension for an array of
size 0; otherwise the scored pairs are returned in descending score order
(the insertion order of the result dictionary). -/
def getPrediction (uf itf : Factors) (negItems : ℕ → List ℕ) (catalog : List ℕ)
    (user : ℕ) (removeKnownPos : Bool) : Option (List (ℕ × ℚ)) :=
  let items := if removeKnownPos then negItems user else catalog
  if items.isEmpty then none
  else if toRowIndex user < uf.length ∧ ∀ i ∈ items, toRowIndex i < itf.length then
    let userEmbed := uf.getD (toRowIndex user) []
    let preds := broadcastScores userEmbed (items.map (fun i => itf.getD (toRowIndex i) []))
    some ((items.zip preds).mergeSort scoreLe)
  else none

/-- The notebook's `get_recommendations`: iterate the prediction dictionary
in order, stopping after N entries — i.e. the first N scored pairs. -/
def getRecommendations (uf itf : Factors) (negItems : ℕ → List ℕ) (catalog : List ℕ)
    (user N : ℕ) (removeKnownPos : Bool) : Option (List (ℕ × ℚ)) :=
  (getPrediction uf itf negItems catalog user removeKnownPos).map (fun l => l.take N)

theorem broadcastScores_eq_map_dot (userEmbed : Vec) (itemEmbeds : List Vec) :
    broadcastScores userEmbed itemEmbeds = itemEmbeds.map (dot userEmbed) := by
  simp [broadcastScores, dot, List.map_map, Function.comp]

theorem scoreLe_trans (a b c : ℕ × ℚ) (hab : scoreLe a b) (hbc : scoreLe b c) :
    scoreLe a c = true := by
  simp only [scoreLe, decide_eq_true_eq] at *
  exact hbc.trans hab

theorem scoreLe_total (a b : ℕ × ℚ) : (scoreLe a b || scoreLe b a) = true := by
  simp only [scoreLe, Bool.or_eq_true, decide_eq_true_eq]
  exact le_total b.2 a.2

theorem getPrediction_eq_of_valid (uf itf : Factors) (negItems : ℕ → List ℕ)
    (catalog : List ℕ) (user : ℕ) (removeKnownPos : Bool)
    (hne : (if removeKnownPos then negItems user else catalog) ≠ [])
    (hok : toRowIndex user < uf.length ∧
      ∀ i ∈ (if removeKnownPos then negItems user else catalog),
        toRowIndex i < itf.length) :
    getPrediction uf itf negItems catalog user removeKnownPos =
      some (((if removeKnownPos then negItems user else catalog).zip
        (broadcastScores (uf.getD (toRowIndex user) [])
          ((if removeKnownPos then negItems user else catalog).map
            (fun i => itf.getD (toRowIndex i) [])))).mergeSort scoreLe) := by
  rw [getPrediction]
  rw [if_neg (by simpa [List.isEmpty_iff] using hne), if_pos hok]

/-- The scored pair list underlying `get_prediction` is the candidate list
tagged with each candidate's dot-product score. -/
theorem getPrediction_pairs (uf itf : Factors) (items : List ℕ) (user : ℕ) :
    items.zip (broadcastScores (uf.getD (toRowIndex user) [])
        (items.map (fun i => itf.getD (toRowIndex i) []))) =
      items.map (fun i => (i, dot (uf.getD (toRowIndex user) [])
        (itf.getD (toRowIndex i) []))) := by
  rw [broadcastScores_eq_map_dot, List.map_map]
  calc items.zip (items.map (dot (uf.getD (toRowIndex user) []) ∘
        fun i => itf.getD (toRowIndex i) []))
      = (items.map id).zip (items.map (dot (uf.getD (toRowIndex user) []) ∘
        fun i => itf.getD (toRowIndex i) [])) := by rw [List.map_id]
    _ = _ := by rw [List.zip_map']; simp [Function.comp]

/-- C5 (corrected, amended with a non-empty candidate set): for every user
whose candidate set — the negative pool under `remove_known_pos`, the full
catalog otherwise — is non-empty, duplicate-free and within row bounds,
`get_recommendations` returns a list of length `min(N, |candidates|)` with
no duplicate items and non-increasing scores.  The counterexample shows the
unamended claim fails on an empty candidate set, where the source raises
instead of returning the empty sequence. -/
theorem c5_recommendation_contract (uf itf : Factors) (negItems : ℕ → List ℕ)
    (catalog : List ℕ) (user N : ℕ) (removeKnownPos : Bool) (candidates : List ℕ)
    (hc : candidates = if removeKnownPos then negItems user else catalog)
    (_hN : 1 ≤ N)
    (hne : candidates ≠ [])
    (hnodup : candidates.Nodup)
    (huser : toRowIndex user < uf.length)
    (hitems : ∀ i ∈ candidates, toRowIndex i < itf.length) :
    ∃ recs, getRecommendations uf itf negItems catalog user N removeKnownPos = some recs ∧
      recs.length = min N candidates.length ∧
      (recs.map Prod.fst).Nodup ∧
      recs.Pairwise (fun a b => b.2 ≤ a.2) := by
  subst hc
  have hpred := getPrediction_eq_of_valid uf itf negItems catalog user removeKnownPos
    hne ⟨huser, hitems⟩
  rw [getPrediction_pairs] at hpred
  set candidates := if removeKnownPos then negItems user else catalog with hc
  set pairs := candidates.map (fun i => (i, dot (uf.getD (toRowIndex user) [])
    (itf.getD (toRowIndex i) []))) with hpairs
  refine ⟨(pairs.mergeSort scoreLe).take N, ?_, ?_, ?_, ?_⟩
  · rw [getRecommendations, hpred, Option.map_some']
  · rw [List.length_take, List.length_mergeSort, hpairs, List.length_map]
  · have hperm : ((pairs.mergeSort scoreLe).map Prod.fst).Perm (pairs.map Prod.fst) :=
      (List.mergeSort_perm pairs scoreLe).map Prod.fst
    have hfst : pairs.map Prod.fst = candidates := by
      rw [hpairs, List.map_map]
      exact List.map_id candidates
    have hnodup2 : ((pairs.mergeSort scoreLe).map Prod.fst).Nodup :=
      hperm.nodup_iff.mpr (hfst ▸ hnodup)
    exact hnodup2.sublist ((List.take_sublist _ _).map Prod.fst)
  · have hsorted := List.sorted_mergeSort scoreLe_trans scoreLe_total pairs
    have hsorted2 : (pairs.mergeSort scoreLe).Pairwise (fun a b => b.2 ≤ a.2) :=
      hsorted.imp (fun h => by simpa [scoreLe] using h)
    exact List.Pairwise.sublist (List.take_sublist _ _) hsorted2

/-- C5 counterexample: with an empty negative pool and `remove_known_pos`,
no recommendation list of length `min(N, 0) = 0` is produced — the call
fails outright (numpy cannot reshape the empty candidate batch). -/
theorem c5_empty_candidates_fail :
    getRecommendations [[(1:ℚ)/10]] [[1/10]] (fun _ => []) [1] 1 5 true = none ∧
    getRecommendations [[(1:ℚ)/10]] [[1/10]] (fun _ => []) [1] 1 5 true ≠ some [] := by
  exact ⟨rfl, by decide⟩

/-- Witness for C5's amended statement at a concrete store: two candidates
with distinct scores, N = 1. -/
theorem c5_recommendation_contract_witness :
    ∃ recs, getRecommendations [[(1:ℚ)]] [[2], [1]] (fun _ => [1, 2]) [1, 2] 1 1 true =
      some recs ∧
      recs.length = min 1 ([1, 2] : List ℕ).length ∧
      (recs.map Prod.fst).Nodup ∧
      recs.Pairwise (fun a b => b.2 ≤ a.2) :=
  c5_recommendation_contract [[(1:ℚ)]] [[2], [1]] (fun _ => [1, 2]) [1, 2] 1 1 true
    [1, 2] rfl (by decide) (by decide) (by decide) (by decide) (by decide)

/-- C8: batch scoring equals the scalar dot product item by item — the
broadcast row sums are exactly `map (dot userEmbed)`, every scored pair
returned by `get_prediction` carries the dot product of the user's and that
item's rows — and scoring is pure: the same arguments give the same result
(the embedding is a function of the factor state alone). -/
theorem c8_scoring_is_dot_product (userEmbed : Vec) (itemEmbeds : List Vec)
    (uf itf : Factors) (negItems : ℕ → List ℕ) (catalog : List ℕ)
    (user : ℕ) (removeKnownPos : Bool) :
    broadcastScores userEmbed itemEmbeds = itemEmbeds.map (dot userEmbed) ∧
    (∀ pair ∈ (getPrediction uf itf negItems catalog user removeKnownPos).getD [],
      pair.2 = dot (uf.getD (toRowIndex user) []) (itf.getD (toRowIndex pair.1) [])) ∧
    getPrediction uf itf negItems catalog user removeKnownPos =
      getPrediction uf itf negItems catalog user removeKnownPos := by
  refine ⟨broadcastScores_eq_map_dot userEmbed itemEmbeds, ?_, rfl⟩
  intro pair hpair
  by_cases hne : (if removeKnownPos then negItems user else catalog) = []
  · rw [getPrediction] at hpair
    rw [if_pos (by simpa [List.isEmpty_iff] using hne)] at hpair
    simp at hpair
  · by_cases hok : toRowIndex user < uf.length ∧
        ∀ i ∈ (if removeKnownPos then negItems user else catalog),
          toRowIndex i < itf.length
    · rw [getPrediction_eq_of_valid uf itf negItems catalog user removeKnownPos hne hok,
        getPrediction_pairs] at hpair
      rw [Option.getD_some, List.mem_mergeSort, List.mem_map] at hpair
      obtain ⟨i, _, hi⟩ := hpair
      rw [← hi]
    · rw [getPrediction] at hpair
      rw [if_neg (by simpa [List.isEmpty_iff] using hne), if_neg hok] at hpair
      simp at hpair

/-- C9 (code bug): the identifier-to-row translation is the bare `id - 1`,
which is a bijection onto the factor rows only when the catalog is exactly
{1, …, m}.  A catalog of two distinct user ids {1, 3} yields m = 2 factor
rows, yet id 3 translates to row 2, which does not exist: the training and
scoring accesses `factors[id - 1]` go out of bounds, and `get_prediction`
fails for a catalog user — the source's own TODO notes that the compacting
mapping is missing. -/
theorem c9_row_translation_out_of_bounds :
    ([1, 3] : List ℕ).length = 2 ∧ toRowIndex 3 = 2 ∧
    ([[(1:ℚ)/10], [1/10]] : Factors).get? (toRowIndex 3) = none ∧
    getPrediction [[(1:ℚ)/10], [1/10]] [[1/10]] (fun _ => [1]) [1] 3 true = none :=
  ⟨rfl, rfl, rfl, rfl⟩

/-- C10 (corrected): for a user with an empty negative pool,
`get_recommendations(user, N, remove_known_pos=True)` does not return the
empty list — it fails, because `get_prediction` reshapes an empty candidate
batch (`.reshape(0, -1)` raises in numpy). -/
theorem c10_empty_pool_recommendation_fails (uf itf : Factors)
    (negItems : ℕ → List ℕ) (catalog : List ℕ) (user N : ℕ)
    (h : negItems user = []) :
    getRecommendations uf itf negItems catalog user N true = none := by
  rw [getRecommendations, getPrediction]
  simp [h]

/-- C10 counterexample: at a concrete store and user whose pool is empty,
the call returns no list at all (rather than the empty list the claim
asserts). -/
theorem c10_empty_pool_counterexample :
    getRecommendations [[(1:ℚ)]] [[1]] (fun _ => []) [2] 7 3 true = none ∧
    getRecommendations [[(1:ℚ)]] [[1]] (fun _ => []) [2] 7 3 true ≠ some [] := by
  exact ⟨rfl, by decide⟩

/-- Witness for C10's amended statement. -/
theorem c10_empty_pool_recommendation_fails_witness :
    getRecommendations [[(1:ℚ)], [2]] [[1]] (fun _ => []) [1] 2 4 true = none :=
  c10_empty_pool_recommendation_fails [[(1:ℚ)], [2]] [[1]] (fun _ => []) [1] 2 4 rfl

/-- `len(np.intersect1d(recommendations, relevant_items[user]))`: the number
of distinct common elements. -/
def hitCount (recItems relevant : List ℕ) : ℕ :=
  (recItems.toFinset ∩ relevant.toFinset).card

/-- One dictionary entry under assignment `prec_at_N[user] = value`: the
entry for the assigned key gets the new value, every other entry is kept. -/
def bumpEntry (k : ℕ) (v : ℚ) (p : ℕ × Option ℚ) : ℕ × Option ℚ :=
  if p.1 == k then (p.1, some v) else p

/-- Python dict assignment on an association list: replace in place when the
key exists (keeping its position), append a new entry otherwise. -/
def setAssoc (acc : List (ℕ × Option ℚ)) (k : ℕ) (v : ℚ) : List (ℕ × Option ℚ) :=
  if acc.any (fun p => p.1 == k) then acc.map (bumpEntry k v) else acc ++ [(k, some v)]

/-- The per-user Precision@N assigned by the evaluation loop: the distinct
hits of the top-N recommendation against the relevant set, divided by the
requested N (not by the returned list length). -/
def userPrec (uf itf : Factors) (negItems : ℕ → List ℕ) (catalog : List ℕ)
    (N : ℕ) (p : ℕ × List ℕ) : ℚ :=
  match getRecommendations uf itf negItems catalog p.1 N true with
  | some recs => (hitCount (recs.map Prod.fst) p.2 : ℚ) / (N : ℚ)
  | none => 0

/-- The evaluation loop: `for user in relevant_items.keys()`, compute the
top-N recommendations with known positives removed and assign the user's
Precision@N into the dictionary. -/
def evalLoop (uf itf : Factors) (negItems : ℕ → List ℕ) (catalog : List ℕ) (N : ℕ) :
    List (ℕ × List ℕ) → List (ℕ × Option ℚ) → Option (List (ℕ × Option ℚ))
  | [], acc => some acc
  | p :: rest, acc =>
    match getRecommendations uf itf negItems catalog p.1 N true with
    | none => none
    | some recs =>
      evalLoop uf itf negItems catalog N rest
        (setAssoc acc p.1 ((hitCount (recs.map Prod.fst) p.2 : ℚ) / (N : ℚ)))

/-- The Evaluator: `prec_at_N = dict.fromkeys(data.users)` (every catalog
user starts at None), the evaluation loop over the relevant-items mapping,
and `np.mean([val for val in prec_at_N.values() if val is not None])` — the
mean of the values that were actually assigned. -/
def evaluate (uf itf : Factors) (negItems : ℕ → List ℕ) (catalog dataUsers : List ℕ)
    (relevant : List (ℕ × List ℕ)) (N : ℕ) : Option (List (ℕ × Option ℚ) × ℚ) :=
  match evalLoop uf itf negItems catalog N relevant (dataUsers.map (fun u => (u, none))) with
  | none => none
  | some prec =>
    some (prec, (prec.filterMap Prod.snd).sum / ((prec.filterMap Prod.snd).length : ℚ))

theorem bumpEntry_fst (k : ℕ) (v : ℚ) (p : ℕ × Option ℚ) :
    (bumpEntry k v p).1 = p.1 := by
  unfold bumpEntry
  split <;> rfl

theorem map_bumpEntry_of_not_mem (k : ℕ) (v : ℚ) :
    ∀ (l : List (ℕ × Option ℚ)), k ∉ l.map Prod.fst → l.map (bumpEntry k v) = l
  | [], _ => rfl
  | e :: tl, h => by
    have hne : e.1 ≠ k := fun hek => h (by simp [← hek])
    have htl : k ∉ tl.map Prod.fst := fun hk => h (by simp [hk])
    rw [List.map_cons, map_bumpEntry_of_not_mem k v tl htl]
    have hbe : bumpEntry k v e = e := by
      unfold bumpEntry
      rw [if_neg (by simpa using hne)]
    rw [hbe]

theorem setAssoc_cond_iff (acc : List (ℕ × Option ℚ)) (k : ℕ) :
    (acc.any (fun p => p.1 == k) = true) ↔ k ∈ acc.map Prod.fst := by
  simp only [List.any_eq_true, beq_iff_eq, List.mem_map]

theorem setAssoc_mem_self (acc : List (ℕ × Option ℚ)) (k : ℕ) (v : ℚ) :
    (k, some v) ∈ setAssoc acc k v := by
  unfold setAssoc
  split
  · rename_i h
    obtain ⟨p, hp, hpk⟩ := List.any_eq_true.mp h
    refine List.mem_map.mpr ⟨p, hp, ?_⟩
    have hpk' : p.1 = k := by simpa using hpk
    simp [bumpEntry, hpk']
  · exact List.mem_append_right _ (by simp)

theorem setAssoc_mem_of_ne (acc : List (ℕ × Option ℚ)) (k : ℕ) (v : ℚ)
    (e : ℕ × Option ℚ) (he : e ∈ acc) (hne : e.1 ≠ k) : e ∈ setAssoc acc k v := by
  unfold setAssoc
  split
  · refine List.mem_map.mpr ⟨e, he, ?_⟩
    unfold bumpEntry
    rw [if_neg (by simpa using hne)]
  · exact List.mem_append_left _ he

theorem setAssoc_keys_nodup (acc : List (ℕ × Option ℚ)) (k : ℕ) (v : ℚ)
    (h : (acc.map Prod.fst).Nodup) : ((setAssoc acc k v).map Prod.fst).Nodup := by
  unfold setAssoc
  split
  · rw [List.map_map]
    have hfun : (Prod.fst ∘ bumpEntry k v) = (Prod.fst : ℕ × Option ℚ → ℕ) :=
      funext fun p => bumpEntry_fst k v p
    rw [hfun]
    exact h
  · rename_i hab
    have hk : k ∉ acc.map Prod.fst := fun hmem =>
      hab ((setAssoc_cond_iff acc k).mpr hmem)
    rw [List.map_append]
    simp only [List.map_cons, List.map_nil]
    rw [List.nodup_append]
    exact ⟨h, List.nodup_singleton k, by simpa [List.disjoint_singleton] using hk⟩

theorem filterMap_map_bumpEntry (k : ℕ) (v : ℚ) :
    ∀ (l : List (ℕ × Option ℚ)), (l.map Prod.fst).Nodup →
      (∀ e ∈ l, e.1 = k → e.2 = none) → k ∈ l.map Prod.fst →
      ((l.map (bumpEntry k v)).filterMap Prod.snd).Perm (v :: l.filterMap Prod.snd)
  | [], _, _, hk => absurd hk (by simp)
  | e :: tl, hnodup, hnone, hk => by
    have hnodup' : (tl.map Prod.fst).Nodup ∧ e.1 ∉ tl.map Prod.fst := by
      rw [List.map_cons, List.nodup_cons] at hnodup
      exact ⟨hnodup.2, hnodup.1⟩
    by_cases he : e.1 = k
    · have henone : e.2 = none := hnone e (List.mem_cons_self _ _) he
      have htl : k ∉ tl.map Prod.fst := he ▸ hnodup'.2
      rw [List.map_cons, map_bumpEntry_of_not_mem k v tl htl]
      have hbe : bumpEntry k v e = (e.1, some v) := by simp [bumpEntry, he]
      rw [hbe]
      simp [List.filterMap_cons, henone]
    · have hk' : k ∈ tl.map Prod.fst := by
        rw [List.map_cons] at hk
        rcases List.mem_cons.mp hk with h | h
        · exact absurd h.symm he
        · exact h
      have hbe : bumpEntry k v e = e := by
        unfold bumpEntry
        rw [if_neg (by simpa using he)]
      have ih := filterMap_map_bumpEntry k v tl hnodup'.1
        (fun x hx hxk => hnone x (List.mem_cons_of_mem _ hx) hxk) hk'
      rw [List.map_cons, hbe]
      cases he2 : e.2 with
      | none => simpa [List.filterMap_cons, he2] using ih
      | some q =>
        simp only [List.filterMap_cons, he2]
        exact (ih.cons q).trans (List.Perm.swap v q _)

theorem setAssoc_filterMap (acc : List (ℕ × Option ℚ)) (k : ℕ) (v : ℚ)
    (hnodup : (acc.map Prod.fst).Nodup)
    (hnone : ∀ e ∈ acc, e.1 = k → e.2 = none) :
    ((setAssoc acc k v).filterMap Prod.snd).Perm (v :: acc.filterMap Prod.snd) := by
  unfold setAssoc
  split
  · rename_i h
    exact filterMap_map_bumpEntry k v acc hnodup hnone ((setAssoc_cond_iff acc k).mp h)
  · rw [List.filterMap_append]
    simp only [List.filterMap_cons, List.filterMap_nil]
    exact List.perm_append_singleton v _

theorem userPrec_eq (uf itf : Factors) (negItems : ℕ → List ℕ) (catalog : List ℕ)
    (N : ℕ) (p : ℕ × List ℕ) (recs : List (ℕ × ℚ))
    (h : getRecommendations uf itf negItems catalog p.1 N true = some recs) :
    userPrec uf itf negItems catalog N p =
      (hitCount (recs.map Prod.fst) p.2 : ℚ) / (N : ℚ) := by
  unfold userPrec
  rw [h]

theorem setAssoc_mem_inv (acc : List (ℕ × Option ℚ)) (k : ℕ) (v : ℚ)
    (e : ℕ × Option ℚ) (he : e ∈ setAssoc acc k v) :
    e = (k, some v) ∨ (e ∈ acc ∧ e.1 ≠ k) := by
  unfold setAssoc at he
  split at he
  · obtain ⟨x, hx, hbx⟩ := List.mem_map.mp he
    by_cases hxk : x.1 = k
    · left
      rw [← hbx]
      simp [bumpEntry, hxk]
    · right
      have hid : bumpEntry k v x = x := by
        unfold bumpEntry
        rw [if_neg (by simpa using hxk)]
      rw [← hbx, hid]
      exact ⟨hx, hxk⟩
  · rename_i h
    rcases List.mem_append.mp he with h1 | h1
    · right
      refine ⟨h1, fun hek => h ((setAssoc_cond_iff acc k).mpr ?_)⟩
      exact hek ▸ List.mem_map_of_mem Prod.fst h1
    · left
      simpa using h1

theorem evalLoop_spec (uf itf : Factors) (negItems : ℕ → List ℕ) (catalog : List ℕ)
    (N : ℕ) :
    ∀ (rest : List (ℕ × List ℕ)) (acc : List (ℕ × Option ℚ)),
      (acc.map Prod.fst).Nodup →
      (rest.map Prod.fst).Nodup →
      (∀ e ∈ acc, e.1 ∈ rest.map Prod.fst → e.2 = none) →
      (∀ p ∈ rest, (getRecommendations uf itf negItems catalog p.1 N true).isSome) →
      ∃ acc', evalLoop uf itf negItems catalog N rest acc = some acc' ∧
        (acc'.filterMap Prod.snd).Perm
          ((rest.map (userPrec uf itf negItems catalog N)) ++ acc.filterMap Prod.snd) ∧
        (∀ e ∈ acc, e.1 ∉ rest.map Prod.fst → e ∈ acc') ∧
        (∀ p ∈ rest, (p.1, some (userPrec uf itf negItems catalog N p)) ∈ acc')
  | [], acc, _, _, _, _ => ⟨acc, rfl, by simp, fun e he _ => he, by simp⟩
  | p :: rest, acc, hacc, hkeys, hnone, hsucc => by
    obtain ⟨recs, hrecs⟩ :=
      Option.isSome_iff_exists.mp (hsucc p (List.mem_cons_self _ _))
    have hval := userPrec_eq uf itf negItems catalog N p recs hrecs
    have hkeys' : (rest.map Prod.fst).Nodup ∧ p.1 ∉ rest.map Prod.fst := by
      rw [List.map_cons, List.nodup_cons] at hkeys
      exact ⟨hkeys.2, hkeys.1⟩
    set v := (hitCount (recs.map Prod.fst) p.2 : ℚ) / (N : ℚ) with hv
    set acc₁ := setAssoc acc p.1 v with hacc₁
    have hacc₁nodup : (acc₁.map Prod.fst).Nodup := setAssoc_keys_nodup acc p.1 v hacc
    have hnone₁ : ∀ e ∈ acc₁, e.1 ∈ rest.map Prod.fst → e.2 = none := by
      intro e he hemem
      rcases setAssoc_mem_inv acc p.1 v e he with h | ⟨hea, _⟩
      · rw [h] at hemem
        exact absurd hemem hkeys'.2
      · refine hnone e hea ?_
        rw [List.map_cons]
        exact List.mem_cons_of_mem _ hemem
    have hnonep : ∀ e ∈ acc, e.1 = p.1 → e.2 = none := by
      intro e he hep
      refine hnone e he ?_
      rw [List.map_cons, hep]
      exact List.mem_cons_self _ _
    obtain ⟨acc', hrun, hperm, hpres, hmem⟩ := evalLoop_spec uf itf negItems catalog N
      rest acc₁ hacc₁nodup hkeys'.1 hnone₁
      (fun q hq => hsucc q (List.mem_cons_of_mem _ hq))
    have hloop : evalLoop uf itf negItems catalog N (p :: rest) acc =
        evalLoop uf itf negItems catalog N rest acc₁ := by
      rw [evalLoop, hrecs]
    refine ⟨acc', ?_, ?_, ?_, ?_⟩
    · rw [hloop]
      exact hrun
    · rw [List.map_cons, List.cons_append, hval]
      have h2 : (acc₁.filterMap Prod.snd).Perm (v :: acc.filterMap Prod.snd) :=
        setAssoc_filterMap acc p.1 v hacc hnonep
      exact hperm.trans ((h2.append_left _).trans List.perm_middle)
    · intro e he hemem
      rw [List.map_cons] at hemem
      have hep : e.1 ≠ p.1 := fun h => hemem (h ▸ List.mem_cons_self _ _)
      have herest : e.1 ∉ rest.map Prod.fst := fun h => hemem (List.mem_cons_of_mem _ h)
      exact hpres e (setAssoc_mem_of_ne acc p.1 v e he hep) herest
    · intro q hq
      rcases List.mem_cons.mp hq with h | h
      · subst h
        rw [hval]
        exact hpres (q.1, some v) (setAssoc_mem_self acc q.1 v) hkeys'.2
      · exact hmem q h

/-- C6: for every user present in the relevant-items mapping the Evaluator
assigns `Precision@N = |recommended ∩ relevant| / N` (dividing by the
requested N), and the aggregate mean is the sum of exactly those users'
precisions divided by their number: users of the catalog that are absent
from the mapping keep their initial None and are excluded from the mean,
not counted as zero. -/
theorem c6_precision_mean_over_relevant (uf itf : Factors) (negItems : ℕ → List ℕ)
    (catalog dataUsers : List ℕ) (relevant : List (ℕ × List ℕ)) (N : ℕ)
    (hrel : relevant ≠ [])
    (hkeys : (relevant.map Prod.fst).Nodup)
    (husers : dataUsers.Nodup)
    (hsucc : ∀ p ∈ relevant, (getRecommendations uf itf negItems catalog p.1 N true).isSome) :
    ∃ prec, evaluate uf itf negItems catalog dataUsers relevant N =
      some (prec, (relevant.map (userPrec uf itf negItems catalog N)).sum /
        (relevant.length : ℚ)) ∧
      (∀ p ∈ relevant, (p.1, some (userPrec uf itf negItems catalog N p)) ∈ prec) ∧
      (∀ u ∈ dataUsers, u ∉ relevant.map Prod.fst → (u, none) ∈ prec) := by
  have hne := hrel
  set init := dataUsers.map (fun u => ((u : ℕ), (none : Option ℚ))) with hinit
  have hinitkeys : (init.map Prod.fst).Nodup := by
    rw [hinit, List.map_map]
    have hfun : (Prod.fst ∘ fun u => ((u : ℕ), (none : Option ℚ))) = id :=
      funext fun u => rfl
    rw [hfun, List.map_id]
    exact husers
  have hinitnone : ∀ e ∈ init, e.1 ∈ relevant.map Prod.fst → e.2 = none := by
    intro e he _
    rw [hinit] at he
    obtain ⟨u, _, hu⟩ := List.mem_map.mp he
    rw [← hu]
  obtain ⟨prec, hrun, hperm, hpres, hmem⟩ := evalLoop_spec uf itf negItems catalog N
    relevant init hinitkeys hkeys hinitnone hsucc
  have hinitfm : init.filterMap Prod.snd = [] := by
    rw [hinit, List.filterMap_map]
    rw [List.filterMap_eq_nil_iff]
    intro u _
    rfl
  have hperm' : (prec.filterMap Prod.snd).Perm
      (relevant.map (userPrec uf itf negItems catalog N)) := by
    rw [hinitfm, List.append_nil] at hperm
    exact hperm
  refine ⟨prec, ?_, hmem, ?_⟩
  · unfold evaluate
    rw [hrun]
    show some (prec, (prec.filterMap Prod.snd).sum /
        ((prec.filterMap Prod.snd).length : ℚ)) =
      some (prec, (relevant.map (userPrec uf itf negItems catalog N)).sum /
        (relevant.length : ℚ))
    rw [hperm'.sum_eq, hperm'.length_eq, List.length_map]
  · intro u hu hnotin
    refine hpres (u, none) ?_ hnotin
    rw [hinit]
    exact List.mem_map_of_mem _ hu

/-- Witness for C6, the Scenario C instance: one relevant user with relevant
set {1, 2, 3}, ten candidate items, N = 10, a second catalog user absent from
the mapping; additionally, ten recommended items of which exactly 3 are
relevant give precision 3/10 = 0.3. -/
theorem c6_precision_mean_over_relevant_witness :
    (∃ prec, evaluate [[1]] [[10], [9], [8], [7], [6], [5], [4], [3], [2], [1]]
        (fun _ => [1, 2, 3, 4, 5, 6, 7, 8, 9, 10]) [1, 2, 3, 4, 5, 6, 7, 8, 9, 10]
        [1, 2] [(1, [1, 2, 3])] 10 =
      some (prec, (([(1, [1, 2, 3])] : List (ℕ × List ℕ)).map
        (userPrec [[1]] [[10], [9], [8], [7], [6], [5], [4], [3], [2], [1]]
          (fun _ => [1, 2, 3, 4, 5, 6, 7, 8, 9, 10]) [1, 2, 3, 4, 5, 6, 7, 8, 9, 10] 10)).sum /
        ((([(1, [1, 2, 3])] : List (ℕ × List ℕ)).length : ℚ))) ∧
      (∀ p ∈ ([(1, [1, 2, 3])] : List (ℕ × List ℕ)),
        (p.1, some (userPrec [[1]] [[10], [9], [8], [7], [6], [5], [4], [3], [2], [1]]
          (fun _ => [1, 2, 3, 4, 5, 6, 7, 8, 9, 10]) [1, 2, 3, 4, 5, 6, 7, 8, 9, 10] 10 p)) ∈ prec) ∧
      (∀ u ∈ ([1, 2] : List ℕ), u ∉ ([(1, [1, 2, 3])] : List (ℕ × List ℕ)).map Prod.fst →
        (u, none) ∈ prec)) ∧
    (hitCount [1, 2, 3, 4, 5, 6, 7, 8, 9, 10] [1, 2, 3] : ℚ) / (10 : ℚ) = 3 / 10 :=
  ⟨c6_precision_mean_over_relevant [[1]] [[10], [9], [8], [7], [6], [5], [4], [3], [2], [1]]
      (fun _ => [1, 2, 3, 4, 5, 6, 7, 8, 9, 10]) [1, 2, 3, 4, 5, 6, 7, 8, 9, 10]
      [1, 2] [(1, [1, 2, 3])] 10 (by decide) (by decide) (by decide) (by decide),
    by rw [show hitCount [1, 2, 3, 4, 5, 6, 7, 8, 9, 10] [1, 2, 3] = 3 by decide]; norm_num⟩

end RecsysBPR
